import Mathlib

/-!
Shallow embedding of the Birthday-postcard interactive scene, for checking
its specification.

The embedding covers:
* the App component's event handlers and the `setTimeout`-scheduled
  extinguish transition (source: the unnamed App file, `handleBlow`,
  `handleReset`, `handleSendWish`);
* the gesture classifier's target mapping, smoothing and deadzone
  (source: the HandGesture component, `predictWebcam`);
* the per-frame physics of one confetti particle
  (source: `BirthdayCake.tsx`, `ConfettiExplosion`);
* the per-frame update of one wish projectile
  (source: `WishParticles.tsx`, `SingleWish`).

Real numbers of the source are modelled as rationals; times are modelled in
whole milliseconds, as `setTimeout` takes them.
-/

/-- A submitted wish, as the App component stores it: `{ id, text }`. -/
structure Wish where
  id : Nat
  text : String
deriving DecidableEq, Repr

/-- The App component's state: the five `useState` values, the
`wishIdCounter` ref, and the list of pending `setTimeout` fire times
(absolute, in milliseconds) that `handleBlow` has scheduled and that have
not yet fired.  The source never stores a timeout id, so nothing can be
cancelled; the reset handler leaves `timers` untouched. -/
structure AppState where
  isBlown : Bool
  isBlowing : Bool
  hasWished : Bool
  wishes : List Wish
  inputValue : String
  wishIdCounter : Nat
  timers : List Nat
deriving DecidableEq, Repr

/-- Initial state of the App component: all flags false, no wishes, empty
input, counter 0, no pending timeout. -/
def initState : AppState :=
  { isBlown := false, isBlowing := false, hasWished := false,
    wishes := [], inputValue := "", wishIdCounter := 0, timers := [] }

/-- Handler `handleBlow`, invoked at absolute time `now` (ms): sets `isBlowing` and
schedules `setIsBlown(true)` to run 1000 ms later. -/
def handleBlow (now : Nat) (s : AppState) : AppState :=
  { s with isBlowing := true, timers := s.timers ++ [now + 1000] }

/-- Handler `handleReset`: clears the four rendered state values.  The pending
timeout list is untouched — the source stores no timeout id and calls no
`clearTimeout`. -/
def handleReset (s : AppState) : AppState :=
  { s with
    isBlown := false, isBlowing := false, hasWished := false,
    wishes := [] }

/-- A string is blank when every character is whitespace; this is exactly
when JavaScript's `inputValue.trim()` is the empty string, hence falsy. -/
def blank (str : String) : Bool :=
  str.data.all Char.isWhitespace

/-- Handler `handleSendWish`: the source returns unchanged when `inputValue.trim()`
is falsy (the input is empty or whitespace-only, i.e. `blank`); otherwise it
appends `{ id: wishIdCounter++, text: inputValue }` to the wish list, clears
the input and sets `hasWished`. -/
def handleSendWish (s : AppState) : AppState :=
  if blank s.inputValue then s
  else
    { s with
      wishes := s.wishes ++ [⟨s.wishIdCounter, s.inputValue⟩],
      wishIdCounter := s.wishIdCounter + 1,
      inputValue := "",
      hasWished := true }

/-- The input field's `onChange` handler: replaces `inputValue`. -/
def setInputValue (text : String) (s : AppState) : AppState :=
  { s with inputValue := text }

/-- The externally triggered events of the App component. -/
inductive Event where
  | blow
  | reset
  | sendWish
  | setInput (text : String)
deriving DecidableEq, Repr

/-- Dispatch one event at absolute time `now` to its handler. -/
def stepEvent (now : Nat) : Event → AppState → AppState
  | .blow => handleBlow now
  | .reset => handleReset
  | .sendWish => handleSendWish
  | .setInput text => setInputValue text

/-- Deliver every pending timeout whose fire time has been reached by time
`t`: each one runs `setIsBlown(true)` and leaves the pending list. -/
def fireDue (t : Nat) (s : AppState) : AppState :=
  if ∃ u ∈ s.timers, u ≤ t then
    { s with isBlown := true,
             timers := s.timers.filter (fun u => decide (t < u)) }
  else s

/-- Run a time-ordered list of timestamped events from a state, delivering
due timeouts before each event, as the single-threaded event loop does. -/
def runEvents : List (Nat × Event) → AppState → AppState
  | [], s => s
  | (now, e) :: rest, s => runEvents rest (stepEvent now e (fireDue now s))

/-- The App state observed at time `t` under a time-ordered trace of
events: the events up to `t` are processed (due timeouts delivered before
each), then any timeout due by `t` itself is delivered. -/
def stateAt (trace : List (Nat × Event)) (t : Nat) : AppState :=
  fireDue t (runEvents (trace.filter (fun p => p.1 ≤ t)) initState)

/-- The candle lifecycle state of the spec, read off the App flags exactly
as the UI does: the reset button renders iff `isBlown`, the blow button
iff `hasWished && !isBlown && !isBlowing`. -/
inductive CandleState where
  | Idle
  | Wishing
  | Blowing
  | Blown
deriving DecidableEq, Repr

/-- Abstraction from App flags to the spec's candle state. -/
def candleState (s : AppState) : CandleState :=
  if s.isBlown then .Blown
  else if s.isBlowing then .Blowing
  else if s.hasWished then .Wishing
  else .Idle

example : candleState (stateAt [(0, Event.blow), (500, Event.reset)] 1000)
    = CandleState.Blown := by decide

example : candleState (stateAt [(0, Event.blow), (500, Event.reset)] 999)
    = CandleState.Idle := by decide

example :
    (runEvents [(0, Event.blow), (100, Event.blow)] initState).timers
    = [1000, 1100] := by decide

example : blank "  " = true := by decide

example : blank "hi " = false := by decide

/-- Events that touch neither the extinguish flags nor the timeout list:
wish submission and input editing. -/
def benign : Event → Prop
  | .blow => False
  | .reset => False
  | .sendWish => True
  | .setInput _ => True

lemma stepEvent_benign (now : Nat) (e : Event) (s : AppState)
    (hb : benign e) :
    (stepEvent now e s).isBlown = s.isBlown ∧
    (stepEvent now e s).isBlowing = s.isBlowing ∧
    (stepEvent now e s).timers = s.timers := by
  cases e with
  | blow => exact hb.elim
  | reset => exact hb.elim
  | sendWish =>
      show (handleSendWish s).isBlown = s.isBlown ∧
        (handleSendWish s).isBlowing = s.isBlowing ∧
        (handleSendWish s).timers = s.timers
      unfold handleSendWish
      split <;> simp
  | setInput text => simp [stepEvent, setInputValue]

lemma fireDue_isBlown (t : Nat) (s : AppState) :
    (fireDue t s).isBlown = (s.isBlown || decide (∃ u ∈ s.timers, u ≤ t)) := by
  unfold fireDue
  split
  · next h => simp [h]
  · next h => simp [h]

lemma fireDue_timers (t : Nat) (s : AppState) :
    (fireDue t s).timers = s.timers.filter (fun u => decide (t < u)) := by
  unfold fireDue
  split
  · rfl
  · next h =>
      have hall : ∀ u ∈ s.timers, decide (t < u) = true := by
        intro u hu
        simp only [decide_eq_true_eq]
        by_contra hlt
        exact h ⟨u, hu, by omega⟩
      exact (List.filter_eq_self.mpr hall).symm

lemma fireDue_isBlowing (t : Nat) (s : AppState) :
    (fireDue t s).isBlowing = s.isBlowing := by
  unfold fireDue
  split <;> rfl

lemma fireDue_hasWished (t : Nat) (s : AppState) :
    (fireDue t s).hasWished = s.hasWished := by
  unfold fireDue
  split <;> rfl

lemma fireDue_of_timers_nil (t : Nat) (s : AppState) (hs : s.timers = []) :
    fireDue t s = s := by
  unfold fireDue
  split
  · next h => rw [hs] at h; simp at h
  · rfl

lemma runEvents_append (a b : List (Nat × Event)) (s : AppState) :
    runEvents (a ++ b) s = runEvents b (runEvents a s) := by
  induction a generalizing s with
  | nil => rfl
  | cons p rest ih =>
      obtain ⟨now, e⟩ := p
      exact ih (stepEvent now e (fireDue now s))

/-- Running any benign events timestamped at or before `t`, then delivering
the timeouts due by `t`, blows the candle out exactly when a pending timeout
of the starting state is due by `t`, and never touches `isBlowing`. -/
lemma runEvents_benign_fireDue (ts : List (Nat × Event)) (s : AppState)
    (t : Nat) (hb : ∀ p ∈ ts, benign p.2) (ht : ∀ p ∈ ts, p.1 ≤ t) :
    (fireDue t (runEvents ts s)).isBlown
        = (s.isBlown || decide (∃ u ∈ s.timers, u ≤ t)) ∧
    (fireDue t (runEvents ts s)).isBlowing = s.isBlowing := by
  induction ts generalizing s with
  | nil => exact ⟨fireDue_isBlown t s, fireDue_isBlowing t s⟩
  | cons p rest ih =>
      obtain ⟨now, e⟩ := p
      have hbe : benign e := hb _ (List.mem_cons_self _ _)
      have hnow : now ≤ t := ht _ (List.mem_cons_self _ _)
      have hb' : ∀ q ∈ rest, benign q.2 :=
        fun q hq => hb q (List.mem_cons_of_mem _ hq)
      have ht' : ∀ q ∈ rest, q.1 ≤ t :=
        fun q hq => ht q (List.mem_cons_of_mem _ hq)
      obtain ⟨e1, e2, e3⟩ := stepEvent_benign now e (fireDue now s) hbe
      obtain ⟨h1, h2⟩ := ih (stepEvent now e (fireDue now s)) hb' ht'
      refine ⟨?_, ?_⟩
      · show (fireDue t (runEvents rest
          (stepEvent now e (fireDue now s)))).isBlown = _
        rw [h1, e1, e3, fireDue_isBlown, fireDue_timers]
        have hiff : ((∃ u ∈ s.timers, u ≤ now) ∨
            (∃ u ∈ s.timers.filter (fun u => decide (now < u)), u ≤ t)) ↔
            (∃ u ∈ s.timers, u ≤ t) := by
          constructor
          · rintro (⟨u, hu, hle⟩ | ⟨u, hu, hle⟩)
            · exact ⟨u, hu, by omega⟩
            · exact ⟨u, (List.mem_filter.mp hu).1, hle⟩
          · rintro ⟨u, hu, hle⟩
            by_cases hcase : u ≤ now
            · exact Or.inl ⟨u, hu, hcase⟩
            · refine Or.inr ⟨u, List.mem_filter.mpr ⟨hu, ?_⟩, hle⟩
              simp only [decide_eq_true_eq]
              omega
        rw [Bool.or_assoc, ← Bool.decide_or, decide_eq_decide.mpr hiff]
      · show (fireDue t (runEvents rest
          (stepEvent now e (fireDue now s)))).isBlowing = _
        rw [h2, e2, fireDue_isBlowing]

/-- Running benign events from a state with no pending timeout never
touches the extinguish flags and leaves no pending timeout. -/
lemma runEvents_benign_clean (ts : List (Nat × Event)) (s : AppState)
    (hb : ∀ p ∈ ts, benign p.2) (hs : s.timers = []) :
    (runEvents ts s).isBlown = s.isBlown ∧
    (runEvents ts s).isBlowing = s.isBlowing ∧
    (runEvents ts s).timers = [] := by
  induction ts generalizing s with
  | nil => exact ⟨rfl, rfl, hs⟩
  | cons p rest ih =>
      obtain ⟨now, e⟩ := p
      have hbe : benign e := hb _ (List.mem_cons_self _ _)
      have hb' : ∀ q ∈ rest, benign q.2 :=
        fun q hq => hb q (List.mem_cons_of_mem _ hq)
      rw [show runEvents ((now, e) :: rest) s
          = runEvents rest (stepEvent now e (fireDue now s)) from rfl,
        fireDue_of_timers_nil now s hs]
      obtain ⟨e1, e2, e3⟩ := stepEvent_benign now e s hbe
      obtain ⟨h1, h2, h3⟩ := ih (stepEvent now e s) hb' (by rw [e3, hs])
      exact ⟨by rw [h1, e1], by rw [h2, e2], h3⟩

lemma candleState_eq_blown_iff (s : AppState) :
    candleState s = CandleState.Blown ↔ s.isBlown = true := by
  cases hb : s.isBlown <;> cases hg : s.isBlowing <;> cases hw : s.hasWished
    <;> simp [candleState, hb, hg, hw]

lemma candleState_eq_blowing (s : AppState) (hb : s.isBlown = false)
    (hg : s.isBlowing = true) : candleState s = CandleState.Blowing := by
  simp [candleState, hb, hg]

/-- C1: in any trace in which, amid benign (wish-submission and
input-editing) events only, blow fires once at time `t0` and no reset
occurs, the candle is `Blowing` through the whole interval
`[t0, t0 + 1000)` ms, is never `Blown` before `t0 + 1000` ms, and is
`Blown` at `t0 + 1000` ms and ever after: `Blown` is reached only through
the 1.0-second `Blowing` phase, never instantaneously. -/
theorem blow_reaches_blown_after_exactly_one_second
    (pre post : List (Nat × Event)) (t0 : Nat)
    (hpre : ∀ p ∈ pre, benign p.2)
    (hpost : ∀ p ∈ post, benign p.2 ∧ t0 ≤ p.1) :
    (∀ t, t < t0 + 1000 →
      candleState (stateAt (pre ++ (t0, Event.blow) :: post) t)
        ≠ CandleState.Blown) ∧
    (∀ t, t0 ≤ t → t < t0 + 1000 →
      candleState (stateAt (pre ++ (t0, Event.blow) :: post) t)
        = CandleState.Blowing) ∧
    (∀ t, t0 + 1000 ≤ t →
      candleState (stateAt (pre ++ (t0, Event.blow) :: post) t)
        = CandleState.Blown) := by
  have key : ∀ t,
      (t < t0 → (stateAt (pre ++ (t0, Event.blow) :: post) t).isBlown
        = false) ∧
      (t0 ≤ t → (stateAt (pre ++ (t0, Event.blow) :: post) t).isBlown
          = decide (t0 + 1000 ≤ t) ∧
        (stateAt (pre ++ (t0, Event.blow) :: post) t).isBlowing = true) := by
    intro t
    have hpre_f : ∀ p ∈ pre.filter (fun p => decide (p.1 ≤ t)), benign p.2 :=
      fun p hp => hpre p (List.mem_of_mem_filter hp)
    have hpre_t : ∀ p ∈ pre.filter (fun p => decide (p.1 ≤ t)), p.1 ≤ t := by
      intro p hp
      have := List.of_mem_filter hp
      simpa using this
    constructor
    · intro hlt
      have hrest : ((t0, Event.blow) :: post).filter
          (fun p => decide (p.1 ≤ t)) = [] := by
        apply List.filter_eq_nil_iff.mpr
        intro p hp
        rcases List.mem_cons.mp hp with h | h
        · subst h; simp only [decide_eq_true_eq]; omega
        · have := (hpost p h).2
          simp only [decide_eq_true_eq]
          omega
      have hfil : (pre ++ (t0, Event.blow) :: post).filter
          (fun p => decide (p.1 ≤ t))
          = pre.filter (fun p => decide (p.1 ≤ t)) := by
        rw [List.filter_append, hrest, List.append_nil]
      show (fireDue t (runEvents ((pre ++ (t0, Event.blow) :: post).filter
        (fun p => decide (p.1 ≤ t))) initState)).isBlown = false
      rw [hfil]
      have hmain := runEvents_benign_fireDue
        (pre.filter (fun p => decide (p.1 ≤ t))) initState t hpre_f hpre_t
      rw [hmain.1]
      simp [initState]
    · intro hge
      have hfil : (pre ++ (t0, Event.blow) :: post).filter
          (fun p => decide (p.1 ≤ t))
          = pre.filter (fun p => decide (p.1 ≤ t))
            ++ (t0, Event.blow) :: post.filter (fun p => decide (p.1 ≤ t)) := by
        rw [List.filter_append, List.filter_cons_of_pos (by simpa using hge)]
      have hclean := runEvents_benign_clean
        (pre.filter (fun p => decide (p.1 ≤ t))) initState hpre_f rfl
      set s1 := runEvents (pre.filter (fun p => decide (p.1 ≤ t))) initState
        with hs1
      have hs1blown : s1.isBlown = false := hclean.1
      have hs1timers : s1.timers = [] := hclean.2.2
      have hstep : runEvents ((t0, Event.blow)
            :: post.filter (fun p => decide (p.1 ≤ t))) s1
          = runEvents (post.filter (fun p => decide (p.1 ≤ t)))
            (handleBlow t0 s1) := by
        show runEvents (post.filter (fun p => decide (p.1 ≤ t)))
          (stepEvent t0 Event.blow (fireDue t0 s1)) = _
        rw [fireDue_of_timers_nil t0 s1 hs1timers]
        rfl
      have hpost_f : ∀ p ∈ post.filter (fun p => decide (p.1 ≤ t)),
          benign p.2 :=
        fun p hp => (hpost p (List.mem_of_mem_filter hp)).1
      have hpost_t : ∀ p ∈ post.filter (fun p => decide (p.1 ≤ t)),
          p.1 ≤ t := by
        intro p hp
        have := List.of_mem_filter hp
        simpa using this
      have hmain := runEvents_benign_fireDue
        (post.filter (fun p => decide (p.1 ≤ t))) (handleBlow t0 s1)
        t hpost_f hpost_t
      have hb2 : (handleBlow t0 s1).isBlown = false := hs1blown
      have ht2 : (handleBlow t0 s1).timers = [t0 + 1000] := by
        show s1.timers ++ [t0 + 1000] = [t0 + 1000]
        rw [hs1timers]
        rfl
      have hg2 : (handleBlow t0 s1).isBlowing = true := rfl
      constructor
      · show (fireDue t (runEvents ((pre ++ (t0, Event.blow) :: post).filter
          (fun p => decide (p.1 ≤ t))) initState)).isBlown
          = decide (t0 + 1000 ≤ t)
        rw [hfil, runEvents_append, ← hs1, hstep, hmain.1, hb2, ht2]
        simp
      · show (fireDue t (runEvents ((pre ++ (t0, Event.blow) :: post).filter
          (fun p => decide (p.1 ≤ t))) initState)).isBlowing = true
        rw [hfil, runEvents_append, ← hs1, hstep, hmain.2, hg2]
  refine ⟨?_, ?_, ?_⟩
  · intro t ht hcontra
    have hblown := (candleState_eq_blown_iff _).mp hcontra
    by_cases hcase : t0 ≤ t
    · have := ((key t).2 hcase).1
      rw [hblown] at this
      have : (t0 + 1000 ≤ t) := by
        have h2 := this.symm
        simpa using h2
      omega
    · have := (key t).1 (by omega)
      rw [hblown] at this
      exact absurd this (by simp)
  · intro t h1 h2
    have hk := (key t).2 h1
    apply candleState_eq_blowing
    · rw [hk.1]
      simp only [decide_eq_false_iff_not]
      omega
    · exact hk.2
  · intro t h1
    have hk := (key t).2 (by omega)
    apply (candleState_eq_blown_iff _).mpr
    rw [hk.1]
    simpa using h1

/-- Witness for C1 at the concrete trace `[(0, blow)]`: the candle is
`Blowing` at 999 ms and `Blown` at 1000 ms. -/
theorem blow_reaches_blown_witness :
    candleState (stateAt [(0, Event.blow)] 999) = CandleState.Blowing ∧
    candleState (stateAt [(0, Event.blow)] 1000) = CandleState.Blown := by
  have h := blow_reaches_blown_after_exactly_one_second [] [] 0
    (by simp) (by simp)
  exact ⟨h.2.1 999 (by omega) (by omega), h.2.2 1000 (by omega)⟩

lemma candleState_congr (s1 s2 : AppState) (h1 : s1.isBlown = s2.isBlown)
    (h2 : s1.isBlowing = s2.isBlowing) (h3 : s1.hasWished = s2.hasWished) :
    candleState s1 = candleState s2 := by
  unfold candleState
  rw [h1, h2, h3]

/-- C2, counterexample: invoking blow a second time 100 ms after the first
is not a no-op on the App state — the handler runs unguarded, so a second
one-second timeout is scheduled and the pending-timer list has two entries,
not one. -/
theorem second_blow_not_a_noop :
    runEvents [(0, Event.blow), (100, Event.blow)] initState
      ≠ runEvents [(0, Event.blow)] initState ∧
    (runEvents [(0, Event.blow), (100, Event.blow)] initState).timers.length
      = 2 :=
  ⟨by decide, by decide⟩

/-- C2, amended: a second blow while already `Blowing` leaves the rendered
flags unchanged (`isBlowing` still set, the candle not yet blown out) but
schedules a second timeout; as long as no reset intervenes, the observable
candle state at every time is the same as with a single blow, and the
extinguish still happens relative to the first call. -/
theorem second_blow_extra_timer_same_trajectory (t0 t1 : Nat)
    (h01 : t0 ≤ t1) (h1k : t1 < t0 + 1000) :
    (runEvents [(t0, Event.blow), (t1, Event.blow)] initState).isBlowing
      = true ∧
    (runEvents [(t0, Event.blow), (t1, Event.blow)] initState).isBlown
      = false ∧
    (runEvents [(t0, Event.blow), (t1, Event.blow)] initState).timers
      = [t0 + 1000, t1 + 1000] ∧
    (∀ t, candleState (stateAt [(t0, Event.blow), (t1, Event.blow)] t)
      = candleState (stateAt [(t0, Event.blow)] t)) := by
  have hfinit : fireDue t0 initState = initState :=
    fireDue_of_timers_nil _ _ rfl
  have hA : runEvents [(t0, Event.blow)] initState
      = handleBlow t0 initState := by
    show stepEvent t0 Event.blow (fireDue t0 initState) = _
    rw [hfinit]
    rfl
  have hAtimers : (handleBlow t0 initState).timers = [t0 + 1000] := rfl
  have hnofire : ¬ ∃ u ∈ (handleBlow t0 initState).timers, u ≤ t1 := by
    rintro ⟨u, hu, hle⟩
    rw [hAtimers] at hu
    have : u = t0 + 1000 := by simpa using hu
    omega
  have hfA : fireDue t1 (handleBlow t0 initState)
      = handleBlow t0 initState := by
    unfold fireDue
    rw [if_neg hnofire]
  have hB : runEvents [(t0, Event.blow), (t1, Event.blow)] initState
      = handleBlow t1 (handleBlow t0 initState) := by
    show runEvents [(t1, Event.blow)]
      (stepEvent t0 Event.blow (fireDue t0 initState)) = _
    rw [hfinit]
    show stepEvent t1 Event.blow (fireDue t1 (handleBlow t0 initState)) = _
    rw [hfA]
    rfl
  refine ⟨by rw [hB]; rfl, by rw [hB]; rfl, by rw [hB]; rfl, ?_⟩
  intro t
  unfold stateAt
  by_cases hc1 : t < t0
  · have hd : List.filter (fun p => decide (p.1 ≤ t))
        [(t0, Event.blow), (t1, Event.blow)] = [] := by
      apply List.filter_eq_nil_iff.mpr
      intro p hp
      simp only [List.mem_cons, List.not_mem_nil, or_false] at hp
      rcases hp with h | h <;> subst h <;>
        simp only [decide_eq_true_eq] <;> omega
    have hs : List.filter (fun p => decide (p.1 ≤ t)) [(t0, Event.blow)]
        = [] := by
      apply List.filter_eq_nil_iff.mpr
      intro p hp
      simp only [List.mem_cons, List.not_mem_nil, or_false] at hp
      subst hp
      simp only [decide_eq_true_eq]
      omega
    rw [hd, hs]
  · by_cases hc2 : t < t1
    · have hd : List.filter (fun p => decide (p.1 ≤ t))
          [(t0, Event.blow), (t1, Event.blow)] = [(t0, Event.blow)] := by
        rw [List.filter_cons_of_pos (by simp only [decide_eq_true_eq]; omega),
          List.filter_cons_of_neg (by simp only [decide_eq_true_eq]; omega)]
        rfl
      have hs : List.filter (fun p => decide (p.1 ≤ t)) [(t0, Event.blow)]
          = [(t0, Event.blow)] := by
        rw [List.filter_cons_of_pos (by simp only [decide_eq_true_eq]; omega)]
        rfl
      rw [hd, hs]
    · have hd : List.filter (fun p => decide (p.1 ≤ t))
          [(t0, Event.blow), (t1, Event.blow)]
          = [(t0, Event.blow), (t1, Event.blow)] := by
        rw [List.filter_cons_of_pos (by simp only [decide_eq_true_eq]; omega),
          List.filter_cons_of_pos (by simp only [decide_eq_true_eq]; omega)]
        rfl
      have hs : List.filter (fun p => decide (p.1 ≤ t)) [(t0, Event.blow)]
          = [(t0, Event.blow)] := by
        rw [List.filter_cons_of_pos (by simp only [decide_eq_true_eq]; omega)]
        rfl
      rw [hd, hs, hB, hA]
      apply candleState_congr
      · rw [fireDue_isBlown, fireDue_isBlown]
        have hBtimers : (handleBlow t1 (handleBlow t0 initState)).timers
            = [t0 + 1000, t1 + 1000] := rfl
        have hBblown : (handleBlow t1 (handleBlow t0 initState)).isBlown
            = false := rfl
        have hAblown : (handleBlow t0 initState).isBlown = false := rfl
        rw [hBtimers, hAtimers, hBblown, hAblown]
        simp only [Bool.false_or]
        apply decide_eq_decide.mpr
        simp only [List.mem_cons, List.not_mem_nil, or_false,
          List.mem_singleton]
        constructor
        · rintro ⟨u, hu, hle⟩
          rcases hu with h | h <;> exact ⟨t0 + 1000, rfl, by omega⟩
        · rintro ⟨u, hu, hle⟩
          exact ⟨u, Or.inl hu, hle⟩
      · rw [fireDue_isBlowing, fireDue_isBlowing]
        rfl
      · rw [fireDue_hasWished, fireDue_hasWished]
        rfl

/-- Witness for the amended C2 at blows at 0 ms and 100 ms: two pending
timers, and the same observed candle state at 1500 ms as a single blow. -/
theorem second_blow_extra_timer_witness :
    (runEvents [(0, Event.blow), (100, Event.blow)] initState).timers
      = [1000, 1100] ∧
    candleState (stateAt [(0, Event.blow), (100, Event.blow)] 1500)
      = candleState (stateAt [(0, Event.blow)] 1500) := by
  have h := second_blow_extra_timer_same_trajectory 0 100
    (by omega) (by omega)
  exact ⟨h.2.2.1, h.2.2.2 1500⟩

/-- C3, the code at the failing input: blow at 0 ms, reset at 500 ms.  The
source stores no timeout id and `handleReset` cancels nothing, so the stale
timeout scheduled by the blow still fires: the state is `Idle` at 999 ms but
flips to `Blown` at 1000 ms, with no new blow in between — the stale
transition the spec requires `reset` to prevent. -/
theorem reset_does_not_cancel_pending_timeout :
    candleState (stateAt [(0, Event.blow), (500, Event.reset)] 999)
      = CandleState.Idle ∧
    candleState (stateAt [(0, Event.blow), (500, Event.reset)] 1000)
      = CandleState.Blown :=
  ⟨by decide, by decide⟩

/-- C10: a wish submission whose text is empty or whitespace-only is
rejected atomically — `handleSendWish` returns the state unchanged: no wish
is appended (hence no projectile spawned, since projectiles are rendered
one per entry of `wishes`), `hasWished` stays false, the id counter does
not advance, and the pending input text is kept. -/
theorem blank_wish_submission_is_noop (s : AppState)
    (h : blank s.inputValue = true) :
    handleSendWish s = s := by
  unfold handleSendWish
  rw [if_pos h]

/-- Witness for C10 on a concrete whitespace-only input. -/
theorem blank_wish_submission_witness :
    handleSendWish { initState with inputValue := "   " }
      = { initState with inputValue := "   " } :=
  blank_wish_submission_is_noop _ (by decide)

/-- Threshold `closedRatio = 1.3` of the gesture classifier. -/
def closedRatio : ℚ := 13/10

/-- Threshold `openRatio = 2.2` of the gesture classifier. -/
def openRatio : ℚ := 22/10

/-- The scale-invariant ratio `avgTipDist / (scaleRef || 1)` computed by
`predictWebcam`; JavaScript's `scaleRef || 1` substitutes 1 for a zero
reference. -/
def gestureRatio (avgTipDist scaleRef : ℚ) : ℚ :=
  avgTipDist / (if scaleRef = 0 then 1 else scaleRef)

/-- The per-frame target factor of the gesture classifier: 0 when no hand
is detected (`none`); otherwise computed from the mean wrist-to-fingertip
distance and the wrist-to-middle-knuckle scale reference by the branch
ladder of `predictWebcam`. -/
def targetFactor : Option (ℚ × ℚ) → ℚ
  | none => 0
  | some (avgTipDist, scaleRef) =>
    if gestureRatio avgTipDist scaleRef < closedRatio then -1
    else if openRatio < gestureRatio avgTipDist scaleRef then 1
    else
      ((gestureRatio avgTipDist scaleRef - closedRatio)
        / (openRatio - closedRatio)) * 2 - 1

/-- The smoothing update of `predictWebcam`:
`currentFactor += (targetFactor - currentFactor) * 0.15`. -/
def smoothStep (current target : ℚ) : ℚ :=
  current + (target - current) * (15/100)

/-- The deadzone of `predictWebcam`: a value of magnitude below 0.1 is
snapped to exactly 0. -/
def applyDeadzone (x : ℚ) : ℚ :=
  if |x| < 1/10 then 0 else x

/-- One full classifier update on a fresh video frame: smooth toward the
target, then apply the deadzone; the result is stored back into
`currentFactor` and emitted through `onGestureChange`. -/
def classifierUpdate (current target : ℚ) : ℚ :=
  applyDeadzone (smoothStep current target)

lemma gestureRatio_one (a : ℚ) : gestureRatio a 1 = a := by
  unfold gestureRatio
  norm_num

/-- On the closed band between the thresholds the target factor is the
linear interpolation, also at both endpoints. -/
lemma targetFactor_band (r : ℚ) (h1 : closedRatio ≤ r) (h2 : r ≤ openRatio) :
    targetFactor (some (r, 1))
      = ((r - closedRatio) / (openRatio - closedRatio)) * 2 - 1 := by
  show (if gestureRatio r 1 < closedRatio then -1
    else if openRatio < gestureRatio r 1 then 1
    else ((gestureRatio r 1 - closedRatio) / (openRatio - closedRatio)) * 2
      - 1)
    = ((r - closedRatio) / (openRatio - closedRatio)) * 2 - 1
  rw [gestureRatio_one]
  rw [if_neg (by exact not_lt.mpr h1), if_neg (by exact not_lt.mpr h2)]

/-- C4: the classifier's target factor is 0 when no hand is detected;
otherwise, with ratio = meanTipDistance / scaleReference (1 substituted
for a zero reference), it is -1 for ratio ≤ 1.3, +1 for ratio ≥ 2.2, and
on the open band the linear map ((ratio - 1.3)/(2.2 - 1.3))·2 - 1 — a map
that increases strictly with the ratio, agrees with the endpoint values,
and attains every value of [-1, 1] on the closed band. -/
theorem target_factor_threshold_map :
    targetFactor none = 0 ∧
    (∀ a s : ℚ, gestureRatio a s ≤ closedRatio →
      targetFactor (some (a, s)) = -1) ∧
    (∀ a s : ℚ, openRatio ≤ gestureRatio a s →
      targetFactor (some (a, s)) = 1) ∧
    (∀ a s : ℚ, closedRatio < gestureRatio a s →
      gestureRatio a s < openRatio →
      targetFactor (some (a, s))
        = ((gestureRatio a s - closedRatio) / (openRatio - closedRatio)) * 2
          - 1) ∧
    (∀ r1 r2 : ℚ, closedRatio ≤ r1 → r1 < r2 → r2 ≤ openRatio →
      targetFactor (some (r1, 1)) < targetFactor (some (r2, 1))) ∧
    (∀ y : ℚ, -1 ≤ y → y ≤ 1 → ∃ r : ℚ, closedRatio ≤ r ∧ r ≤ openRatio ∧
      targetFactor (some (r, 1)) = y) := by
  have hbody : ∀ a s : ℚ, targetFactor (some (a, s))
      = (if gestureRatio a s < closedRatio then -1
        else if openRatio < gestureRatio a s then 1
        else ((gestureRatio a s - closedRatio) / (openRatio - closedRatio))
          * 2 - 1) := fun a s => rfl
  have hoc : (0 : ℚ) < openRatio - closedRatio := by
    norm_num [closedRatio, openRatio]
  refine ⟨rfl, ?_, ?_, ?_, ?_, ?_⟩
  · intro a s h
    rw [hbody]
    by_cases h1 : gestureRatio a s < closedRatio
    · rw [if_pos h1]
    · have heq : gestureRatio a s = closedRatio :=
        le_antisymm h (not_lt.mp h1)
      rw [if_neg h1, if_neg (by rw [heq]; norm_num [closedRatio, openRatio]),
        heq]
      norm_num
  · intro a s h
    rw [hbody]
    rw [if_neg (by push_neg; norm_num [closedRatio, openRatio] at h ⊢; linarith)]
    by_cases h2 : openRatio < gestureRatio a s
    · rw [if_pos h2]
    · have heq : gestureRatio a s = openRatio :=
        le_antisymm (not_lt.mp h2) h
      rw [if_neg h2, heq, div_self (by norm_num [closedRatio, openRatio])]
      norm_num
  · intro a s h1 h2
    rw [hbody, if_neg (not_lt.mpr (le_of_lt h1)), if_neg (not_lt.mpr (le_of_lt h2))]
  · intro r1 r2 hr1 hr12 hr2
    rw [targetFactor_band r1 hr1 (by linarith),
      targetFactor_band r2 (by linarith) hr2]
    have hlt : (r1 - closedRatio) / (openRatio - closedRatio)
        < (r2 - closedRatio) / (openRatio - closedRatio) :=
      (div_lt_div_iff_of_pos_right hoc).mpr (by linarith)
    linarith
  · intro y hy1 hy2
    refine ⟨closedRatio + (y + 1) * (openRatio - closedRatio) / 2, ?_, ?_, ?_⟩
    · nlinarith
    · nlinarith
    · rw [targetFactor_band _ (by nlinarith) (by nlinarith)]
      field_simp
      ring

/-- C8: after an update, the emitted signal is never a nonzero value of
magnitude below 0.1 — whenever the smoothed value has magnitude below 0.1
before the deadzone, the delivered value is exactly 0. -/
theorem deadzone_forces_exact_zero :
    (∀ current target : ℚ, |smoothStep current target| < 1/10 →
      classifierUpdate current target = 0) ∧
    (∀ current target : ℚ, classifierUpdate current target = 0 ∨
      1/10 ≤ |classifierUpdate current target|) := by
  constructor
  · intro c t h
    unfold classifierUpdate applyDeadzone
    rw [if_pos h]
  · intro c t
    unfold classifierUpdate applyDeadzone
    by_cases h : |smoothStep c t| < 1/10
    · left
      rw [if_pos h]
    · right
      rw [if_neg h]
      exact not_lt.mp h

/-- C7, counterexample: with the deadzone included in every update — which
is how `predictWebcam` runs it — a constantly held target is not approached
and the distance to the target can even grow.  From signal 0 with target
1/2 held, every update returns 0 (the smoothed value 3/40 is snapped), so
the signal never comes within 1/4 of the target; and a single update from
signal = target = 9/100 moves the signal strictly away from the target. -/
theorem deadzone_update_defeats_convergence :
    classifierUpdate 0 (1/2) = 0 ∧
    (¬ ∃ n : ℕ, |(fun s => classifierUpdate s (1/2))^[n] 0 - 1/2| < 1/4) ∧
    |(9/100 : ℚ) - 9/100| < |classifierUpdate (9/100) (9/100) - 9/100| := by
  have hfix : classifierUpdate 0 (1/2) = 0 := by
    unfold classifierUpdate smoothStep applyDeadzone
    rw [if_pos]
    rw [abs_of_nonneg (by norm_num)]
    norm_num
  refine ⟨hfix, ?_, ?_⟩
  · rintro ⟨n, hn⟩
    rw [@Function.iterate_fixed ℚ (fun s => classifierUpdate s (1/2)) 0
      hfix n] at hn
    rw [abs_of_nonpos (by norm_num)] at hn
    norm_num at hn
  · have h9 : classifierUpdate (9/100) (9/100) = 0 := by
      unfold classifierUpdate smoothStep applyDeadzone
      rw [if_pos]
      rw [abs_of_nonneg (by norm_num)]
      norm_num
    rw [sub_self, abs_zero, h9]
    rw [abs_of_nonpos (by norm_num : (0:ℚ) - 9/100 ≤ 0)]
    norm_num

/-- C7, amended: the smoothing step alone — before the deadzone — contracts
the distance to a held target by the exact factor 17/20 on every update, so
the distance never increases and the signal never crosses to the far side
of the target, and from every start the signal comes within every ε > 0 of
the target after finitely many updates.  With the deadzone appended this
fails inside the deadzone band, as the counterexample shows. -/
theorem smoothing_converges_without_overshoot :
    (∀ s t : ℚ, t - smoothStep s t = (17/20) * (t - s)) ∧
    (∀ s t : ℚ, |smoothStep s t - t| ≤ |s - t|) ∧
    (∀ s t ε : ℚ, 0 < ε →
      ∃ n : ℕ, |(fun x => smoothStep x t)^[n] s - t| < ε) := by
  have hcontract : ∀ s t : ℚ, t - smoothStep s t = (17/20) * (t - s) := by
    intro s t
    unfold smoothStep
    ring
  have habs : ∀ s t : ℚ, |smoothStep s t - t| = (17/20) * |s - t| := by
    intro s t
    have h1 : smoothStep s t - t = (17/20) * (s - t) := by
      have := hcontract s t
      linarith
    rw [h1, abs_mul, abs_of_nonneg (by norm_num : (0:ℚ) ≤ 17/20)]
  refine ⟨hcontract, ?_, ?_⟩
  · intro s t
    rw [habs]
    nlinarith [abs_nonneg (s - t)]
  · intro s t ε hε
    have hdist : ∀ n : ℕ, |(fun x => smoothStep x t)^[n] s - t|
        = (17/20) ^ n * |s - t| := by
      intro n
      induction n with
      | zero => simp
      | succ n ih =>
          rw [Function.iterate_succ_apply', habs, ih, pow_succ]
          ring
    by_cases hz : |s - t| = 0
    · exact ⟨0, by rw [hdist 0, hz, mul_zero]; exact hε⟩
    · have hpos : 0 < |s - t| := lt_of_le_of_ne (abs_nonneg _) (Ne.symm hz)
      obtain ⟨n, hn⟩ := exists_pow_lt_of_lt_one
        (div_pos hε hpos) (by norm_num : (17/20 : ℚ) < 1)
      refine ⟨n, ?_⟩
      rw [hdist n]
      calc (17/20 : ℚ) ^ n * |s - t| < (ε / |s - t|) * |s - t| := by
            exact mul_lt_mul_of_pos_right hn hpos
        _ = ε := div_mul_cancel₀ ε hz

/-- Cubic ease-in-out of the wish flight, from `SingleWish`:
`t < 0.5 ? 4*t*t*t : 1 - Math.pow(-2*t + 2, 3)/2`. -/
def easeInOutCubic (t : ℚ) : ℚ :=
  if t < 1/2 then 4 * t * t * t else 1 - (-2 * t + 2) ^ 3 / 2

/-- C9: the wish-flight easing satisfies ease(0) = 0 and ease(1) = 1 and is
monotonically non-decreasing on the whole interval [0, 1]. -/
theorem ease_endpoints_and_monotone :
    easeInOutCubic 0 = 0 ∧
    easeInOutCubic 1 = 1 ∧
    (∀ x y : ℚ, 0 ≤ x → x ≤ y → y ≤ 1 →
      easeInOutCubic x ≤ easeInOutCubic y) := by
  refine ⟨?_, ?_, ?_⟩
  · unfold easeInOutCubic
    norm_num
  · unfold easeInOutCubic
    norm_num
  · intro x y hx hxy hy1
    unfold easeInOutCubic
    by_cases hx2 : x < 1/2
    · by_cases hy2 : y < 1/2
      · rw [if_pos hx2, if_pos hy2]
        have hquad : (0:ℚ) ≤ x * x + x * y + y * y := by
          nlinarith [sq_nonneg (x + y), sq_nonneg x, sq_nonneg y]
        have hdiff := mul_nonneg (sub_nonneg.mpr hxy) hquad
        nlinarith [hdiff]
      · rw [if_pos hx2, if_neg hy2]
        have hy2' : 1/2 ≤ y := not_lt.mp hy2
        have hx12 : x ≤ 1/2 := le_of_lt hx2
        have hxx : x * x ≤ 1/4 := by nlinarith
        have hx3 : 4 * x * x * x ≤ 1/2 := by nlinarith [hxx, hx]
        have hz0 : (0:ℚ) ≤ -2 * y + 2 := by linarith
        have hz1 : -2 * y + 2 ≤ 1 := by linarith
        have hzsq : (-2 * y + 2) ^ 2 ≤ 1 := by nlinarith
        have hcube : (-2 * y + 2) ^ 3 ≤ 1 := by nlinarith [hzsq, hz0, hz1]
        linarith
    · by_cases hy2 : y < 1/2
      · exact absurd (lt_of_le_of_lt hxy hy2) hx2
      · rw [if_neg hx2, if_neg hy2]
        have ha0 : (0:ℚ) ≤ -2 * y + 2 := by linarith
        have hab : -2 * y + 2 ≤ -2 * x + 2 := by linarith
        have hquad : (0:ℚ) ≤ (-2 * y + 2) * (-2 * y + 2)
            + (-2 * y + 2) * (-2 * x + 2) + (-2 * x + 2) * (-2 * x + 2) := by
          nlinarith [sq_nonneg ((-2 * y + 2) + (-2 * x + 2)),
            sq_nonneg (-2 * y + 2), sq_nonneg (-2 * x + 2)]
        have hdiff := mul_nonneg (sub_nonneg.mpr hab) hquad
        nlinarith [hdiff]

/-- State of one wish projectile, from `SingleWish`: the `progress` ref,
the `exploded` ref (set exactly when the `onImpact` callback has run), the
`finished` flag that unmounts the projectile, and the visual scale used by
the dissolve phase.  Rotation and the Bézier position are pure functions
of `progress` and play no part in the event logic. -/
structure WishState where
  progress : ℚ
  exploded : Bool
  finished : Bool
  scale : ℚ
deriving DecidableEq, Repr

/-- A freshly mounted wish projectile. -/
def initWish : WishState :=
  { progress := 0, exploded := false, finished := false, scale := 1 }

/-- One `useFrame` step of `SingleWish` with frame delta `delta` seconds:
nothing once finished; while `progress < 1` advance it by `delta * 0.8`;
on the first frame entered with `progress ≥ 1` and not yet exploded, set
`exploded` and fire `onImpact` (the returned flag); afterwards multiply
the scale by 1.1 and finish once it exceeds 5. -/
def wishStep (s : WishState) (delta : ℚ) : WishState × Bool :=
  if s.finished then (s, false)
  else if s.progress < 1 then
    ({ s with progress := s.progress + delta * (8/10) }, false)
  else if s.exploded = false then
    ({ s with exploded := true }, true)
  else
    ({ s with
       scale := s.scale * (11/10),
       finished := decide (5 < s.scale * (11/10)) }, false)

/-- Fold one projectile through a whole list of frame deltas, counting how
often the impact callback fired. -/
def wishRun : List ℚ → WishState → WishState × Nat
  | [], s => (s, 0)
  | d :: ds, s =>
    ((wishRun ds (wishStep s d).1).1,
      (if (wishStep s d).2 then 1 else 0) + (wishRun ds (wishStep s d).1).2)

lemma wishStep_fired_iff (s : WishState) (d : ℚ) :
    (wishStep s d).2 = true ↔
      (1 ≤ s.progress ∧ s.exploded = false ∧ s.finished = false) := by
  unfold wishStep
  by_cases hf : s.finished
  · rw [if_pos hf]
    simp [hf]
  · have hf' : s.finished = false := by simpa using hf
    rw [if_neg hf]
    by_cases hp : s.progress < 1
    · rw [if_pos hp]
      constructor
      · intro h
        simp at h
      · rintro ⟨h1, -, -⟩
        exact absurd h1 (not_le.mpr hp)
    · rw [if_neg hp]
      by_cases he : s.exploded = false
      · rw [if_pos he]
        constructor
        · intro h
          exact ⟨not_lt.mp hp, he, hf'⟩
        · intro h
          rfl
      · rw [if_neg he]
        constructor
        · intro h
          simp at h
        · rintro ⟨-, h2, -⟩
          exact absurd h2 he

lemma wishStep_exploded (s : WishState) (d : ℚ) :
    (wishStep s d).1.exploded = (s.exploded || (wishStep s d).2) := by
  unfold wishStep
  by_cases hf : s.finished
  · rw [if_pos hf]
    simp
  · rw [if_neg hf]
    by_cases hp : s.progress < 1
    · rw [if_pos hp]
      simp
    · rw [if_neg hp]
      by_cases he : s.exploded = false
      · rw [if_pos he]
        simp [he]
      · rw [if_neg he]
        have he' : s.exploded = true := by simpa using he
        simp [he']

lemma wishRun_count (ds : List ℚ) (s : WishState) :
    (if s.exploded then 1 else 0) + (wishRun ds s).2
      = (if (wishRun ds s).1.exploded then 1 else 0) := by
  induction ds generalizing s with
  | nil => simp [wishRun]
  | cons d ds ih =>
      show (if s.exploded then 1 else 0) +
        ((if (wishStep s d).2 then 1 else 0)
          + (wishRun ds (wishStep s d).1).2)
        = (if (wishRun ds (wishStep s d).1).1.exploded then 1 else 0)
      have hkey : (if s.exploded then 1 else 0)
          + (if (wishStep s d).2 then 1 else 0)
          = (if (wishStep s d).1.exploded then 1 else 0) := by
        rw [wishStep_exploded]
        by_cases hfired : (wishStep s d).2 = true
        · have he : s.exploded = false :=
            ((wishStep_fired_iff s d).mp hfired).2.1
          rw [he, hfired]
          simp
        · have hf2 : (wishStep s d).2 = false := by simpa using hfired
          rw [hf2]
          simp
      rw [← Nat.add_assoc, hkey]
      exact ih (wishStep s d).1

lemma wishStep_finished_exploded (s : WishState) (d : ℚ)
    (h : s.finished = true → s.exploded = true) :
    (wishStep s d).1.finished = true → (wishStep s d).1.exploded = true := by
  unfold wishStep
  by_cases hf : s.finished
  · rw [if_pos hf]
    exact h
  · rw [if_neg hf]
    by_cases hp : s.progress < 1
    · rw [if_pos hp]
      exact h
    · rw [if_neg hp]
      by_cases he : s.exploded = false
      · rw [if_pos he]
        intro h2
        rfl
      · rw [if_neg he]
        intro h2
        simpa using he

lemma wishRun_finished_exploded (ds : List ℚ) (s : WishState)
    (h : s.finished = true → s.exploded = true) :
    (wishRun ds s).1.finished = true → (wishRun ds s).1.exploded = true := by
  induction ds generalizing s with
  | nil => exact h
  | cons d ds ih => exact ih _ (wishStep_finished_exploded s d h)

/-- C5: the impact callback of a wish projectile fires exactly on a frame
entered with `progress ≥ 1`, not yet exploded and not finished — never
while the progress parameter is below 1; over every frame sequence from a
fresh projectile the impact count equals 1 if the projectile has exploded
and 0 otherwise, hence never exceeds 1; and over any sequence completing
the whole lifetime (`finished` reached) it is exactly 1. -/
theorem wish_impact_fires_exactly_once :
    (∀ (s : WishState) (d : ℚ), (wishStep s d).2 = true ↔
      (1 ≤ s.progress ∧ s.exploded = false ∧ s.finished = false)) ∧
    (∀ ds : List ℚ, (wishRun ds initWish).2
      = (if (wishRun ds initWish).1.exploded then 1 else 0)) ∧
    (∀ ds : List ℚ, (wishRun ds initWish).2 ≤ 1) ∧
    (∀ ds : List ℚ, (wishRun ds initWish).1.finished = true →
      (wishRun ds initWish).2 = 1) := by
  have hcount : ∀ ds : List ℚ, (wishRun ds initWish).2
      = (if (wishRun ds initWish).1.exploded then 1 else 0) := by
    intro ds
    have h := wishRun_count ds initWish
    simpa [initWish] using h
  refine ⟨wishStep_fired_iff, hcount, ?_, ?_⟩
  · intro ds
    rw [hcount ds]
    split <;> omega
  · intro ds hfin
    rw [hcount ds,
      if_pos (wishRun_finished_exploded ds initWish (by simp [initWish]) hfin)]

/-- One confetti particle of `ConfettiExplosion`: position, velocity,
rotation and rotation speed, stored componentwise as the source stores
them in the four `Float32Array`s. -/
structure Confetti where
  px : ℚ
  py : ℚ
  pz : ℚ
  vx : ℚ
  vy : ℚ
  vz : ℚ
  rx : ℚ
  ry : ℚ
  rz : ℚ
  wx : ℚ
  wy : ℚ
  wz : ℚ
deriving DecidableEq, Repr

/-- One `useFrame` step of the confetti physics, in the statement order of
the source: clamp the frame delta to 0.1 s, subtract gravity `15·dt` from
the vertical velocity, multiply every velocity component by the per-step
drag 0.96, add `velocity·dt` to the position, add `rotationSpeed·dt` to
the rotation. -/
def confettiStep (c : Confetti) (delta : ℚ) : Confetti :=
  let dt := min delta (1/10)
  let vy1 := c.vy - 15 * dt
  let vx2 := c.vx * (96/100)
  let vy2 := vy1 * (96/100)
  let vz2 := c.vz * (96/100)
  { c with
    vx := vx2, vy := vy2, vz := vz2,
    px := c.px + vx2 * dt, py := c.py + vy2 * dt, pz := c.pz + vz2 * dt,
    rx := c.rx + c.wx * dt, ry := c.ry + c.wy * dt, rz := c.rz + c.wz * dt }

/-- C6: every confetti step first clamps the raw delta to
`dt = min(delta, 0.1)`, applies gravity to the vertical velocity component
only, then one un-scaled drag factor 0.96 to each component, then
integrates position with the already-updated velocity, then integrates
rotation — semi-implicit Euler in exactly that order. -/
theorem confetti_step_order :
    ∀ (c : Confetti) (delta : ℚ),
    (confettiStep c delta).vx = c.vx * (96/100) ∧
    (confettiStep c delta).vy
      = (c.vy - 15 * min delta (1/10)) * (96/100) ∧
    (confettiStep c delta).vz = c.vz * (96/100) ∧
    (confettiStep c delta).px
      = c.px + (confettiStep c delta).vx * min delta (1/10) ∧
    (confettiStep c delta).py
      = c.py + (confettiStep c delta).vy * min delta (1/10) ∧
    (confettiStep c delta).pz
      = c.pz + (confettiStep c delta).vz * min delta (1/10) ∧
    (confettiStep c delta).rx = c.rx + c.wx * min delta (1/10) ∧
    (confettiStep c delta).ry = c.ry + c.wy * min delta (1/10) ∧
    (confettiStep c delta).rz = c.rz + c.wz * min delta (1/10) ∧
    (confettiStep c delta).wx = c.wx ∧
    (confettiStep c delta).wy = c.wy ∧
    (confettiStep c delta).wz = c.wz :=
  fun c delta =>
    ⟨rfl, rfl, rfl, rfl, rfl, rfl, rfl, rfl, rfl, rfl, rfl, rfl⟩
